import Mathlib

/-
Verification development for the cash-flow minimizer
(src/cash_flow_minimizer.cpp).  The C++ program is shallowly embedded:
`Person` mirrors class Person (name, balance, std::set<string> of UPIs,
the set modelled as a sorted duplicate-free list), the input-reading
phase mirrors readParticipants/readTransactions over structured input,
`computeNetBalances`, `getMaxDebtor`, `getMaxCreditor`, `findSettlement`
and `round` mirror the corresponding member functions, and `settleIter`
runs the settleDebts while-loop under explicit fuel, reporting whether
the loop finished, ran out of fuel, or hit the undefined dereference
of begin() of an empty UPI set.
-/

namespace CashFlow

/-- Mirror of class Person: display name, running balance, set of UPIs.
std::set<string> is modelled as a sorted duplicate-free list of strings. -/
structure Person where
  name : String
  balance : Int
  upis : List String
deriving Repr, DecidableEq

/-- Default person used for out-of-range indexing (never reached on the
in-range accesses the C++ performs). -/
def dflt : Person := ⟨"", 0, []⟩

/-- Lexicographic character-list comparison, mirroring the
std::string operator< that orders a std::set<string>. -/
def charsLt : List Char → List Char → Bool
  | [], [] => false
  | [], _ :: _ => true
  | _ :: _, [] => false
  | c :: cs, d :: ds => if c < d then true else if d < c then false else charsLt cs ds

/-- String comparison used for the UPI sets. -/
def strLt (a b : String) : Bool := charsLt a.data b.data

/-- Sorted-set insertion, mirroring std::set<string>::insert. -/
def insertUpi (u : String) : List String → List String
  | [] => [u]
  | v :: vs =>
    if strLt u v then u :: v :: vs else if u = v then v :: vs else v :: insertUpi u vs

/-- Person::addUPI. -/
def addUPI (p : Person) (u : String) : Person := { p with upis := insertUpi u p.upis }

/-- Person::adjustBalance. -/
def adjustBalance (p : Person) (a : Int) : Person := { p with balance := p.balance + a }

/-- One settlement instruction: tuple<int,int,int,string> in result_. -/
structure Transfer where
  payer : Nat
  payee : Nat
  amount : Int
  via : String
deriving Repr, DecidableEq

/-- One participant entry of the setup input: a name, the announced UPI
count k (an integer, possibly negative), and the stream of UPI tokens
that follows it (the program reads exactly k of them when 0 ≤ k). -/
structure Entry where
  name : String
  k : Int
  upiAt : Nat → String

/-- The whole structured input consumed by the program: participant
count n, the participant entries, debt count m, and the debt triples
(debtor name, creditor name, amount). -/
structure Input where
  n : Int
  entryAt : Nat → Entry
  m : Int
  debtAt : Nat → String × String × Int

/-- Build one Person from an entry: fresh balance 0, then the k read
UPI tokens inserted in order (the while (k--) loop). -/
def mkPerson (e : Entry) : Person :=
  ((List.range e.k.toNat).map e.upiAt).foldl addUPI ⟨e.name, 0, []⟩

/-- Read `cnt` participant entries starting at entry index `i`,
throwing "Invalid entry." at the first negative UPI count, as
readParticipants does. -/
def readEntriesFrom (entryAt : Nat → Entry) : Nat → Nat → Except String (List Person)
  | _, 0 => Except.ok []
  | i, cnt+1 =>
    if (entryAt i).k < 0 then Except.error "Invalid entry."
    else
      match readEntriesFrom entryAt (i+1) cnt with
      | Except.error msg => Except.error msg
      | Except.ok rest => Except.ok (mkPerson (entryAt i) :: rest)

/-- The post-registration fixup: every UPI of every non-Treasurer
participant is added to the Treasurer (index 0). -/
def unionUpis : List Person → List Person
  | [] => []
  | t :: rest => (rest.foldl (fun acc p => p.upis.foldl addUPI acc) t) :: rest

/-- CashFlowMinimizer::readParticipants over the structured input. -/
def readParticipants (inp : Input) : Except String (List Person) :=
  if inp.n < 2 then Except.error "At least 2 participants required."
  else
    match readEntriesFrom inp.entryAt 0 inp.n.toNat with
    | Except.error msg => Except.error msg
    | Except.ok ps => Except.ok (unionUpis ps)

/-- Name-to-index lookup mirroring idx_: later registrations of the
same name overwrite earlier ones, so the last index wins. -/
def idxOf (names : List String) (nm : String) : Option Nat :=
  (List.range names.length).foldl
    (fun acc i => if names.getD i "" = nm then some i else acc) none

/-- debtMatrix_[i][j] += a, the matrix kept as a total function that is
zero outside the n×n block actually touched. -/
def addDebt (m : Nat → Nat → Int) (i j : Nat) (a : Int) : Nat → Nat → Int :=
  fun x y => if x = i ∧ y = j then m x y + a else m x y

/-- The all-zero debt matrix debtMatrix_ starts from. -/
def zeroMtx : Nat → Nat → Int := fun _ _ => 0

/-- Read `cnt` debt triples starting at debt index `j`, accumulating
into the matrix, throwing "Invalid debt entry." exactly when the
amount is non-positive or a name is unregistered. -/
def readDebtsFrom (names : List String) (debtAt : Nat → String × String × Int) :
    Nat → Nat → (Nat → Nat → Int) → Except String (Nat → Nat → Int)
  | _, 0, mtx => Except.ok mtx
  | j, cnt+1, mtx =>
    match idxOf names (debtAt j).1, idxOf names (debtAt j).2.1 with
    | some di, some ci =>
      if (debtAt j).2.2 ≤ 0 then Except.error "Invalid debt entry."
      else readDebtsFrom names debtAt (j+1) cnt (addDebt mtx di ci (debtAt j).2.2)
    | _, _ => Except.error "Invalid debt entry."

/-- CashFlowMinimizer::readTransactions. -/
def readTransactions (inp : Input) (names : List String) : Except String (Nat → Nat → Int) :=
  if inp.m < 0 then Except.error "Invalid number."
  else readDebtsFrom names inp.debtAt 0 inp.m.toNat zeroMtx

/-- The whole input-reading phase: participants, then debts. -/
def readAll (inp : Input) : Except String (List Person × (Nat → Nat → Int)) :=
  match readParticipants inp with
  | Except.error e => Except.error e
  | Except.ok ps =>
    match readTransactions inp (ps.map (fun p => p.name)) with
    | Except.error e => Except.error e
    | Except.ok mtx => Except.ok (ps, mtx)

/-- Inner j-loop of computeNetBalances acting on person i. -/
def netAdjust (m : Nat → Nat → Int) (n i : Nat) (p : Person) : Person :=
  (List.range n).foldl (fun q j => adjustBalance q (m j i - m i j)) p

/-- Outer i-loop of computeNetBalances: person at list position j
(starting from running index i) is adjusted by its column/row sums. -/
def netFrom (m : Nat → Nat → Int) (n : Nat) : Nat → List Person → List Person
  | _, [] => []
  | i, p :: rest => netAdjust m n i p :: netFrom m n (i+1) rest

/-- CashFlowMinimizer::computeNetBalances. -/
def computeNetBalances (m : Nat → Nat → Int) (ps : List Person) : List Person :=
  netFrom m ps.length 0 ps

/-- people_[i].balance() with the out-of-range default. -/
def getBal (ps : List Person) (i : Nat) : Int := (ps.getD i dflt).balance

/-- One comparison step of std::min_element (first occurrence kept). -/
def minStep (ps : List Person) (best i : Nat) : Nat :=
  if getBal ps i < getBal ps best then i else best

/-- One comparison step of std::max_element (first occurrence kept). -/
def maxStep (ps : List Person) (best i : Nat) : Nat :=
  if getBal ps best < getBal ps i then i else best

/-- CashFlowMinimizer::getMaxDebtor: first index of minimal balance
(std::min_element keeps the first occurrence). -/
def getMaxDebtor (ps : List Person) : Nat :=
  (List.range ps.length).foldl (minStep ps) 0

/-- CashFlowMinimizer::getMaxCreditor: first index of maximal balance
(std::max_element keeps the first occurrence). -/
def getMaxCreditor (ps : List Person) : Nat :=
  (List.range ps.length).foldl (maxStep ps) 0

/-- std::set_intersection of two UPI sets: elements of the first set,
in order, that also occur in the second. -/
def commonUpis (p q : Person) : List String :=
  p.upis.filter (fun u => decide (u ∈ q.upis))

/-- One loop iteration of findSettlement: skip non-creditors, skip
candidates sharing no UPI with the debtor, otherwise keep the strictly
larger balance (first encountered wins ties). -/
def fsStep (ps : List Person) (d : Nat) (acc : Option (Nat × Int × String)) (i : Nat) :
    Option (Nat × Int × String) :=
  if getBal ps i ≤ 0 then acc
  else
    match (commonUpis (ps.getD d dflt) (ps.getD i dflt)).head? with
    | none => acc
    | some via =>
      match acc with
      | none => some (i, getBal ps i, via)
      | some (bc, bb, bv) =>
        if bb < getBal ps i then some (i, getBal ps i, via) else some (bc, bb, bv)

/-- CashFlowMinimizer::findSettlement: scan all participants, keep the
positive-balance candidate with the largest balance that shares a UPI
with the debtor, recording the first shared UPI.  `none` plays the role
of bestCred == -1. -/
def findSettlement (ps : List Person) (d : Nat) : Option (Nat × Int × String) :=
  (List.range ps.length).foldl (fsStep ps d) none

/-- people_[i].adjustBalance(a) inside the registry. -/
def adjAt (ps : List Person) (i : Nat) (a : Int) : List Person :=
  ps.set i (adjustBalance (ps.getD i dflt) a)

/-- amtToPay = -people_[d].balance() for the round's max debtor. -/
def amtToPayOf (ps : List Person) : Int := - getBal ps (getMaxDebtor ps)

/-- The direct branch's transfer amount: min(amtToPay, creditor bal). -/
def directAmt (ps : List Person) (c : Nat) : Int := min (amtToPayOf ps) (getBal ps c)

/-- Registry after the direct branch's two balance adjustments. -/
def directPs (ps : List Person) (c : Nat) : List Person :=
  adjAt (adjAt ps (getMaxDebtor ps) (directAmt ps c)) c (-(directAmt ps c))

/-- Registry after the fallback branch's first leg (debtor pays the
Treasurer): BOTH balances are increased by amtToPay, as the C++ does. -/
def ps1Of (ps : List Person) : List Person :=
  adjAt (adjAt ps 0 (amtToPayOf ps)) (getMaxDebtor ps) (amtToPayOf ps)

/-- The max creditor recomputed after the fallback's first leg. -/
def fcOf (ps : List Person) : Nat := getMaxCreditor (ps1Of ps)

/-- tamt = people_[t].balance() after the fallback's first leg. -/
def tamtOf (ps : List Person) : Int := getBal (ps1Of ps) 0

/-- The fallback branch: route through the Treasurer (index 0),
then forward the Treasurer's whole balance to the recomputed max
creditor.  `none` models the undefined dereference of begin() of an
empty UPI set. -/
def fallback (ps : List Person) : Option (List Person × List Transfer) :=
  match (ps.getD (getMaxDebtor ps) dflt).upis.head? with
  | none => none
  | some du =>
    match ((ps1Of ps).getD (fcOf ps) dflt).upis.head? with
    | none => none
    | some fu =>
      some (adjAt (adjAt (ps1Of ps) (fcOf ps) (-(tamtOf ps))) 0 (-(tamtOf ps)),
            [⟨getMaxDebtor ps, 0, amtToPayOf ps, du⟩, ⟨0, fcOf ps, tamtOf ps, fu⟩])

/-- One iteration of the settleDebts while-loop.  `none` models the
undefined behaviour of dereferencing begin() of an empty UPI set in
the fallback branch; otherwise the new registry plus the transfers
emitted this round are returned. -/
def round (ps : List Person) : Option (List Person × List Transfer) :=
  match findSettlement ps (getMaxDebtor ps) with
  | some (c, _bal, via) =>
    some (directPs ps c, [⟨getMaxDebtor ps, c, directAmt ps c, via⟩])
  | none => fallback ps

/-- Number of participants currently marked settled (balance zero). -/
def settledCount (ps : List Person) : Nat := ps.countP (fun p => p.balance == 0)

/-- How a fuelled run of the settleDebts loop ended. -/
inductive Outcome
  | finished
  | outOfFuel
  | ubStuck
deriving Repr, DecidableEq

/-- Result of a fuelled run: final registry, emitted plan so far, and
how the run ended. -/
structure SRes where
  people : List Person
  plan : List Transfer
  outcome : Outcome
deriving Repr, DecidableEq

/-- The settleDebts while-loop under explicit fuel.  `finished` is the
genuine loop exit (settledCount == n); `outOfFuel` means the loop was
still running when the fuel ran out; `ubStuck` means the round hit the
undefined empty-set dereference. -/
def settleIter : Nat → List Person → List Transfer → SRes
  | 0, ps, acc =>
    if settledCount ps < ps.length then ⟨ps, acc, Outcome.outOfFuel⟩
    else ⟨ps, acc, Outcome.finished⟩
  | fuel+1, ps, acc =>
    if settledCount ps < ps.length then
      match round ps with
      | none => ⟨ps, acc, Outcome.ubStuck⟩
      | some (ps2, ts) => settleIter fuel ps2 (acc ++ ts)
    else ⟨ps, acc, Outcome.finished⟩

/-- The whole run: read, net, settle.  Reading errors propagate; a run
that hits the empty-set dereference or exhausts its fuel produces no
plan. -/
def runAll (inp : Input) (fuel : Nat) : Except String (List Person × List Transfer) :=
  match readAll inp with
  | Except.error e => Except.error e
  | Except.ok (ps, mtx) =>
    let r := settleIter fuel (computeNetBalances mtx ps) []
    match r.outcome with
    | Outcome.finished => Except.ok (r.people, r.plan)
    | Outcome.outOfFuel => Except.error "loop still running"
    | Outcome.ubStuck => Except.error "dereference of empty UPI set"

/-- Sum of all balances. -/
def totalBal (ps : List Person) : Int := (ps.map (fun p => p.balance)).sum

/-- Registry netted from an accepted input (dummy empty registry on a
rejected input; used only to state concrete-run facts). -/
def nettedOf (inp : Input) : List Person :=
  match readAll inp with
  | Except.ok (ps, mtx) => computeNetBalances mtx ps
  | Except.error _ => []

/-- Bool test of `Except.ok`. -/
def exOk {α : Type} (e : Except String α) : Bool :=
  match e with
  | Except.ok _ => true
  | Except.error _ => false

/-- The plan produced by a successful complete run, if any. -/
def planOfRun (inp : Input) (fuel : Nat) : Option (List Transfer) :=
  match runAll inp fuel with
  | Except.ok r => some r.2
  | Except.error _ => none

/-- The settleDebts loop never reaches its exit condition, whatever the
fuel: the concrete run is a genuine infinite loop. -/
def loopsForever (ps : List Person) : Prop :=
  ∀ fuel : Nat, (settleIter fuel ps []).outcome = Outcome.outOfFuel

/-- Every participant's UPI set is contained in the Treasurer's. -/
def treasurerSuperset (ps : List Person) : Bool :=
  ps.all (fun p => p.upis.all (fun u => decide (u ∈ (ps.getD 0 dflt).upis)))

/-- The channel sets of the registry, in order. -/
def upisOf (ps : List Person) : List (List String) := ps.map (fun p => p.upis)

/-- Some participant has a non-positive balance. -/
def someNonPos (ps : List Person) : Bool := ps.any (fun p => decide (p.balance ≤ 0))

/-- Some positive-balance participant shares a UPI with participant d. -/
def hasEligible (ps : List Person) (d : Nat) : Bool :=
  (List.range ps.length).any (fun i =>
    decide (0 < getBal ps i) && !(commonUpis (ps.getD d dflt) (ps.getD i dflt)).isEmpty)

/-- The round emits exactly one transfer, paid by the max debtor
(i.e. it took the direct branch, no Treasurer routing). -/
def directRound (ps : List Person) : Bool :=
  match round ps with
  | some (_, [t]) => t.payer == getMaxDebtor ps
  | _ => false

/-- The transfer-validity property exactly as the specification states
it: strictly positive amount, channel in the intersection of payer's
and payee's UPI sets for every transfer of the list. -/
def strictValid (ps : List Person) (ts : List Transfer) : Bool :=
  ts.all (fun t => decide (0 < t.amount)
    && decide (t.via ∈ (ps.getD t.payer dflt).upis)
    && decide (t.via ∈ (ps.getD t.payee dflt).upis))

/-- The weakened transfer-validity property: non-negative amount,
channel in the intersection of payer's and payee's UPI sets. -/
def validTransfers (ps : List Person) (ts : List Transfer) : Bool :=
  ts.all (fun t => decide (0 ≤ t.amount)
    && decide (t.via ∈ (ps.getD t.payer dflt).upis)
    && decide (t.via ∈ (ps.getD t.payee dflt).upis))

/-- Names announced by the input's participant section. -/
def inpNames (inp : Input) : List String :=
  (List.range inp.n.toNat).map (fun i => (inp.entryAt i).name)

/-- Well-formedness of the input exactly as the specification lists it:
at least two participants, no negative UPI count, non-negative debt
count, every debt with positive amount naming registered participants. -/
def ValidInput (inp : Input) : Prop :=
  2 ≤ inp.n ∧ (∀ i < inp.n.toNat, 0 ≤ (inp.entryAt i).k) ∧ 0 ≤ inp.m ∧
    ∀ j < inp.m.toNat,
      0 < (inp.debtAt j).2.2 ∧ (inp.debtAt j).1 ∈ inpNames inp ∧
        (inp.debtAt j).2.1 ∈ inpNames inp

/-- Scenario from the specification: Treasurer T with UPI set {A},
P1 with {B}, P2 with {C}, single debt: P1 owes P2 amount 7. -/
def inpC4 : Input where
  n := 3
  entryAt := fun i =>
    match i with
    | 0 => ⟨"T", 1, fun _ => "A"⟩
    | 1 => ⟨"P1", 1, fun _ => "B"⟩
    | _ => ⟨"P2", 1, fun _ => "C"⟩
  m := 1
  debtAt := fun _ => ("P1", "P2", 7)

/-- Accepted input on which the settlement loop never terminates:
T with {A}, P1 with {B}, P2 with {C}; debts: P1 owes P2 10 and
T owes P2 5. -/
def inpC1 : Input where
  n := 3
  entryAt := fun i =>
    match i with
    | 0 => ⟨"T", 1, fun _ => "A"⟩
    | 1 => ⟨"P1", 1, fun _ => "B"⟩
    | _ => ⟨"P2", 1, fun _ => "C"⟩
  m := 2
  debtAt := fun j =>
    match j with
    | 0 => ("P1", "P2", 10)
    | _ => ("T", "P2", 5)

/-- Accepted input whose settlement hits the undefined dereference:
T with {A}, member P registered with zero UPIs, debt: P owes T 5. -/
def inpC10 : Input where
  n := 2
  entryAt := fun i =>
    match i with
    | 0 => ⟨"T", 1, fun _ => "A"⟩
    | _ => ⟨"P", 0, fun _ => "x"⟩
  m := 1
  debtAt := fun _ => ("P", "T", 5)

/-- Small accepted input settled by one direct transfer: T with {A},
P with {A}, debt: P owes T 5. -/
def inpW : Input where
  n := 2
  entryAt := fun i =>
    match i with
    | 0 => ⟨"T", 1, fun _ => "A"⟩
    | _ => ⟨"P", 1, fun _ => "A"⟩
  m := 1
  debtAt := fun _ => ("P", "T", 5)

/-- The registry state the nonterminating run cycles on. -/
def psFixC1 : List Person :=
  [⟨"T", 0, ["A", "B", "C"]⟩, ⟨"P1", 0, ["B"]⟩, ⟨"P2", 10, ["C"]⟩]

/-- Sum over a column: total owed to participant i. -/
def colSum (m : Nat → Nat → Int) (n i : Nat) : Int :=
  ((List.range n).map (fun j => m j i)).sum

/-- Sum over a row: total participant i owes. -/
def rowSum (m : Nat → Nat → Int) (n i : Nat) : Int :=
  ((List.range n).map (fun j => m i j)).sum

/-- Overwrite one matrix entry. -/
def setEntry (m : Nat → Nat → Int) (i j : Nat) (v : Int) : Nat → Nat → Int :=
  fun x y => if x = i ∧ y = j then v else m x y

/-- The total adjustment the inner netting loop applies to person i. -/
def netDelta (m : Nat → Nat → Int) (n i : Nat) : Int :=
  ((List.range n).map (fun j => m j i - m i j)).sum

lemma insertUpi_mem (u : String) (l : List String) (v : String) :
    v ∈ insertUpi u l ↔ v = u ∨ v ∈ l := by
  induction l with
  | nil => simp [insertUpi]
  | cons w ws ih =>
    simp only [insertUpi]
    by_cases h1 : strLt u w
    · simp [h1]
    · by_cases h2 : u = w
      · subst h2
        simp [h1]
      · simp [h1, h2, List.mem_cons, ih]
        tauto

lemma addUPI_mem (p : Person) (u v : String) :
    v ∈ (addUPI p u).upis ↔ v = u ∨ v ∈ p.upis := insertUpi_mem u p.upis v

lemma foldl_addUPI_name (us : List String) (p : Person) :
    (us.foldl addUPI p).name = p.name := by
  induction us generalizing p with
  | nil => rfl
  | cons u us ih => simpa using ih (addUPI p u)

lemma foldl_addUPI_balance (us : List String) (p : Person) :
    (us.foldl addUPI p).balance = p.balance := by
  induction us generalizing p with
  | nil => rfl
  | cons u us ih => simpa using ih (addUPI p u)

lemma foldl_addUPI_mem (us : List String) (p : Person) (v : String) :
    v ∈ (us.foldl addUPI p).upis ↔ v ∈ us ∨ v ∈ p.upis := by
  induction us generalizing p with
  | nil => simp
  | cons u us ih =>
    simp only [List.foldl_cons, ih (addUPI p u), addUPI_mem, List.mem_cons]
    tauto

lemma mkPerson_name (e : Entry) : (mkPerson e).name = e.name := foldl_addUPI_name _ _

lemma mkPerson_balance (e : Entry) : (mkPerson e).balance = 0 := foldl_addUPI_balance _ _

lemma foldl_union_name (l : List Person) (t : Person) :
    (l.foldl (fun acc p => p.upis.foldl addUPI acc) t).name = t.name := by
  induction l generalizing t with
  | nil => rfl
  | cons q qs ih => simpa [foldl_addUPI_name] using ih (q.upis.foldl addUPI t)

lemma foldl_union_balance (l : List Person) (t : Person) :
    (l.foldl (fun acc p => p.upis.foldl addUPI acc) t).balance = t.balance := by
  induction l generalizing t with
  | nil => rfl
  | cons q qs ih => simpa [foldl_addUPI_balance] using ih (q.upis.foldl addUPI t)

lemma foldl_union_mem_mono (l : List Person) (t : Person) (v : String) (h : v ∈ t.upis) :
    v ∈ (l.foldl (fun acc p => p.upis.foldl addUPI acc) t).upis := by
  induction l generalizing t with
  | nil => exact h
  | cons q qs ih =>
    exact ih (q.upis.foldl addUPI t) ((foldl_addUPI_mem _ _ _).mpr (Or.inr h))

lemma foldl_union_mem_of (l : List Person) (t p : Person) (v : String)
    (hp : p ∈ l) (hv : v ∈ p.upis) :
    v ∈ (l.foldl (fun acc p => p.upis.foldl addUPI acc) t).upis := by
  induction l generalizing t with
  | nil => cases hp
  | cons q qs ih =>
    rcases List.mem_cons.mp hp with h | h
    · subst h
      exact foldl_union_mem_mono qs _ v ((foldl_addUPI_mem _ _ _).mpr (Or.inl hv))
    · exact ih _ h

lemma unionUpis_names (ps : List Person) :
    (unionUpis ps).map (fun p => p.name) = ps.map (fun p => p.name) := by
  cases ps with
  | nil => rfl
  | cons t rest => simp [unionUpis, foldl_union_name]

lemma unionUpis_balances (ps : List Person) :
    (unionUpis ps).map (fun p => p.balance) = ps.map (fun p => p.balance) := by
  cases ps with
  | nil => rfl
  | cons t rest => simp [unionUpis, foldl_union_balance]

lemma unionUpis_superset (ps : List Person) : treasurerSuperset (unionUpis ps) = true := by
  cases ps with
  | nil => rfl
  | cons t rest =>
    simp only [treasurerSuperset, unionUpis, List.all_eq_true, List.getD_cons_zero]
    intro p hp
    simp only [List.all_eq_true, decide_eq_true_eq]
    intro u hu
    rcases List.mem_cons.mp hp with h | h
    · subst h; exact hu
    · exact foldl_union_mem_of rest t p u h hu

lemma adjAt_length (ps : List Person) (i : Nat) (a : Int) :
    (adjAt ps i a).length = ps.length := by
  simp [adjAt]

lemma adjAt_cons_succ (p : Person) (rest : List Person) (k : Nat) (a : Int) :
    adjAt (p :: rest) (k+1) a = p :: adjAt rest k a := by
  simp [adjAt, List.getD_cons_succ]

lemma getBal_adjAt (ps : List Person) (i : Nat) (a : Int) (j : Nat) :
    getBal (adjAt ps i a) j
      = if j = i ∧ i < ps.length then getBal ps j + a else getBal ps j := by
  induction ps generalizing i j with
  | nil => simp [adjAt, getBal]
  | cons p rest ih =>
    cases i with
    | zero =>
      cases j with
      | zero => simp [adjAt, getBal, adjustBalance]
      | succ t => simp [adjAt, getBal, List.getD_cons_succ]
    | succ k =>
      cases j with
      | zero => simp [adjAt_cons_succ, getBal, List.getD_cons_zero]
      | succ t =>
        rw [adjAt_cons_succ]
        simp only [getBal, List.getD_cons_succ, List.length_cons]
        have hrec := ih k t
        simp only [getBal] at hrec
        rw [hrec]
        by_cases hc : t = k ∧ k < rest.length
        · rw [if_pos hc, if_pos (by omega)]
        · rw [if_neg hc, if_neg (by omega)]

lemma getBal_adjAt_self (ps : List Person) (i : Nat) (a : Int) (h : i < ps.length) :
    getBal (adjAt ps i a) i = getBal ps i + a := by
  rw [getBal_adjAt, if_pos ⟨rfl, h⟩]

lemma getBal_adjAt_ne (ps : List Person) (i : Nat) (a : Int) (j : Nat) (h : j ≠ i) :
    getBal (adjAt ps i a) j = getBal ps j := by
  rw [getBal_adjAt, if_neg (by tauto)]

lemma totalBal_adjAt (ps : List Person) (i : Nat) (a : Int) (h : i < ps.length) :
    totalBal (adjAt ps i a) = totalBal ps + a := by
  induction ps generalizing i with
  | nil => cases h
  | cons p rest ih =>
    cases i with
    | zero =>
      simp only [adjAt, List.getD_cons_zero, List.set_cons_zero, totalBal, List.map_cons,
        List.sum_cons, adjustBalance]
      ring
    | succ k =>
      rw [adjAt_cons_succ]
      simp only [totalBal, List.map_cons, List.sum_cons] at ih ⊢
      rw [ih k (by simpa using h)]
      ring

lemma upisOf_adjAt (ps : List Person) (i : Nat) (a : Int) :
    upisOf (adjAt ps i a) = upisOf ps := by
  induction ps generalizing i with
  | nil => rfl
  | cons p rest ih =>
    cases i with
    | zero => simp [adjAt, upisOf, adjustBalance]
    | succ k =>
      rw [adjAt_cons_succ]
      simp only [upisOf, List.map_cons] at ih ⊢
      rw [ih k]

lemma getD_upis_eq (ps : List Person) (j : Nat) :
    (ps.getD j dflt).upis = (upisOf ps).getD j [] := by
  induction ps generalizing j with
  | nil => rfl
  | cons p rest ih =>
    cases j with
    | zero => rfl
    | succ t => simpa [upisOf, List.getD_cons_succ] using ih t

lemma getD_adjAt_upis (ps : List Person) (i : Nat) (a : Int) (j : Nat) :
    ((adjAt ps i a).getD j dflt).upis = (ps.getD j dflt).upis := by
  rw [getD_upis_eq, upisOf_adjAt, ← getD_upis_eq]

lemma foldl_choice_mem (f : Nat → Nat → Nat) (hf : ∀ b j, f b j = b ∨ f b j = j)
    (l : List Nat) (b : Nat) : l.foldl f b = b ∨ l.foldl f b ∈ l := by
  induction l generalizing b with
  | nil => left; rfl
  | cons j l ih =>
    simp only [List.foldl_cons]
    rcases ih (f b j) with h | h
    · rw [h]
      rcases hf b j with h2 | h2
      · left; exact h2
      · right; rw [h2]; exact List.mem_cons_self _ _
    · right; exact List.mem_cons_of_mem _ h

lemma foldlMin_le (ps : List Person) (l : List Nat) (b : Nat) :
    getBal ps (l.foldl (minStep ps) b) ≤ getBal ps b
      ∧ ∀ i ∈ l, getBal ps (l.foldl (minStep ps) b) ≤ getBal ps i := by
  induction l generalizing b with
  | nil => exact ⟨le_refl _, by simp⟩
  | cons j l ih =>
    simp only [List.foldl_cons]
    obtain ⟨h1, h2⟩ := ih (minStep ps b j)
    have hbj : getBal ps (minStep ps b j) ≤ getBal ps b
        ∧ getBal ps (minStep ps b j) ≤ getBal ps j := by
      by_cases hj : getBal ps j < getBal ps b
      · simp only [minStep, if_pos hj]
        exact ⟨le_of_lt hj, le_refl _⟩
      · simp only [minStep, if_neg hj]
        exact ⟨le_refl _, le_of_not_lt hj⟩
    refine ⟨le_trans h1 hbj.1, ?_⟩
    intro i hi
    rcases List.mem_cons.mp hi with rfl | hi2
    · exact le_trans h1 hbj.2
    · exact h2 i hi2

lemma getMaxDebtor_le (ps : List Person) (i : Nat) (h : i < ps.length) :
    getBal ps (getMaxDebtor ps) ≤ getBal ps i :=
  (foldlMin_le ps (List.range ps.length) 0).2 i (List.mem_range.mpr h)

lemma getMaxDebtor_lt (ps : List Person) (h : 0 < ps.length) :
    getMaxDebtor ps < ps.length := by
  rcases foldl_choice_mem (minStep ps)
      (fun b j => by by_cases hj : getBal ps j < getBal ps b <;> simp [minStep, hj])
      (List.range ps.length) 0 with h0 | hm
  · rw [getMaxDebtor, h0]; exact h
  · exact List.mem_range.mp hm

lemma getMaxCreditor_lt (ps : List Person) (h : 0 < ps.length) :
    getMaxCreditor ps < ps.length := by
  rcases foldl_choice_mem (maxStep ps)
      (fun b j => by by_cases hj : getBal ps b < getBal ps j <;> simp [maxStep, hj])
      (List.range ps.length) 0 with h0 | hm
  · rw [getMaxCreditor, h0]; exact h
  · exact List.mem_range.mp hm

lemma mem_of_head? {α : Type} (l : List α) (a : α) (h : l.head? = some a) : a ∈ l := by
  cases l with
  | nil => cases h
  | cons x xs =>
    simp only [List.head?_cons, Option.some.injEq] at h
    rw [← h]
    exact List.mem_cons_self _ _

lemma commonUpis_mem (p q : Person) (v : String) (h : v ∈ commonUpis p q) :
    v ∈ p.upis ∧ v ∈ q.upis := by
  have := List.mem_filter.mp h
  exact ⟨this.1, of_decide_eq_true this.2⟩

lemma fsStep_spec (ps : List Person) (d : Nat) (acc : Option (Nat × Int × String)) (i : Nat)
    (hi : i < ps.length)
    (hacc : ∀ c b v, acc = some (c, b, v) →
      c < ps.length ∧ b = getBal ps c ∧ 0 < b
        ∧ v ∈ (ps.getD d dflt).upis ∧ v ∈ (ps.getD c dflt).upis) :
    ∀ c b v, fsStep ps d acc i = some (c, b, v) →
      c < ps.length ∧ b = getBal ps c ∧ 0 < b
        ∧ v ∈ (ps.getD d dflt).upis ∧ v ∈ (ps.getD c dflt).upis := by
  intro c b v h
  simp only [fsStep] at h
  by_cases hbal : getBal ps i ≤ 0
  · rw [if_pos hbal] at h
    exact hacc c b v h
  · rw [if_neg hbal] at h
    cases hh : (commonUpis (ps.getD d dflt) (ps.getD i dflt)).head? with
    | none =>
      simp only [hh] at h
      exact hacc c b v h
    | some w =>
      have hw := commonUpis_mem _ _ w (mem_of_head? _ _ hh)
      cases acc with
      | none =>
        simp only [hh, Option.some.injEq, Prod.mk.injEq] at h
        obtain ⟨rfl, rfl, rfl⟩ := h
        exact ⟨hi, rfl, lt_of_not_le hbal, hw.1, hw.2⟩
      | some trip =>
        obtain ⟨bc, bb, bv⟩ := trip
        simp only [hh] at h
        by_cases hlt : bb < getBal ps i
        · simp only [if_pos hlt, Option.some.injEq, Prod.mk.injEq] at h
          obtain ⟨rfl, rfl, rfl⟩ := h
          exact ⟨hi, rfl, lt_of_not_le hbal, hw.1, hw.2⟩
        · simp only [if_neg hlt] at h
          exact hacc c b v h

lemma fs_foldl_spec (ps : List Person) (d : Nat) (l : List Nat) :
    ∀ acc, (∀ i ∈ l, i < ps.length) →
    (∀ c b v, acc = some (c, b, v) →
      c < ps.length ∧ b = getBal ps c ∧ 0 < b
        ∧ v ∈ (ps.getD d dflt).upis ∧ v ∈ (ps.getD c dflt).upis) →
    ∀ c b v, l.foldl (fsStep ps d) acc = some (c, b, v) →
      c < ps.length ∧ b = getBal ps c ∧ 0 < b
        ∧ v ∈ (ps.getD d dflt).upis ∧ v ∈ (ps.getD c dflt).upis := by
  induction l with
  | nil => intro acc _ hacc; exact hacc
  | cons i l ih =>
    intro acc hl hacc
    rw [List.foldl_cons]
    exact ih (fsStep ps d acc i) (fun t ht => hl t (List.mem_cons_of_mem _ ht))
      (fsStep_spec ps d acc i (hl i (List.mem_cons_self _ _)) hacc)

lemma findSettlement_spec (ps : List Person) (d c : Nat) (b : Int) (v : String)
    (h : findSettlement ps d = some (c, b, v)) :
    c < ps.length ∧ b = getBal ps c ∧ 0 < b
      ∧ v ∈ (ps.getD d dflt).upis ∧ v ∈ (ps.getD c dflt).upis :=
  fs_foldl_spec ps d (List.range ps.length) none
    (fun i hi => List.mem_range.mp hi)
    (fun c b v hcv => by cases hcv) c b v h

lemma fsStep_isSome_mono (ps : List Person) (d : Nat) (acc : Option (Nat × Int × String))
    (i : Nat) (h : acc.isSome = true) : (fsStep ps d acc i).isSome = true := by
  simp only [fsStep]
  by_cases hbal : getBal ps i ≤ 0
  · rw [if_pos hbal]; exact h
  · rw [if_neg hbal]
    cases hh : (commonUpis (ps.getD d dflt) (ps.getD i dflt)).head? with
    | none => exact h
    | some w =>
      cases acc with
      | none => rfl
      | some trip =>
        obtain ⟨bc, bb, bv⟩ := trip
        by_cases hlt : bb < getBal ps i <;> simp [hlt]

lemma fs_foldl_isSome_mono (ps : List Person) (d : Nat) (l : List Nat) :
    ∀ acc, acc.isSome = true → (l.foldl (fsStep ps d) acc).isSome = true := by
  induction l with
  | nil => intro acc h; exact h
  | cons i l ih =>
    intro acc h
    rw [List.foldl_cons]
    exact ih (fsStep ps d acc i) (fsStep_isSome_mono ps d acc i h)

lemma fs_foldl_isSome (ps : List Person) (d : Nat) (l : List Nat) :
    ∀ acc i, i ∈ l → 0 < getBal ps i →
      commonUpis (ps.getD d dflt) (ps.getD i dflt) ≠ [] →
      (l.foldl (fsStep ps d) acc).isSome = true := by
  induction l with
  | nil => intro acc i hi; cases hi
  | cons j l ih =>
    intro acc i hi hbal hcom
    rw [List.foldl_cons]
    rcases List.mem_cons.mp hi with rfl | hmem
    · apply fs_foldl_isSome_mono
      simp only [fsStep, if_neg (not_le.mpr hbal)]
      cases hh : (commonUpis (ps.getD d dflt) (ps.getD i dflt)).head? with
      | none =>
        exact absurd (List.head?_eq_none_iff.mp hh) hcom
      | some w =>
        cases acc with
        | none => rfl
        | some trip =>
          obtain ⟨bc, bb, bv⟩ := trip
          by_cases hlt : bb < getBal ps i <;> simp [hlt]
    · exact ih (fsStep ps d acc j) i hmem hbal hcom

lemma findSettlement_isSome_of_eligible (ps : List Person) (d : Nat)
    (h : hasEligible ps d = true) : (findSettlement ps d).isSome = true := by
  obtain ⟨i, hi, hcond⟩ := List.any_eq_true.mp h
  simp only [Bool.and_eq_true, decide_eq_true_eq, Bool.not_eq_true'] at hcond
  refine fs_foldl_isSome ps d (List.range ps.length) none i hi hcond.1 ?_
  intro hnil
  rw [hnil] at hcond
  simp at hcond

lemma foldl_adjust (l : List Nat) (g : Nat → Int) (p : Person) :
    l.foldl (fun q j => adjustBalance q (g j)) p
      = ⟨p.name, p.balance + (l.map g).sum, p.upis⟩ := by
  induction l generalizing p with
  | nil => cases p; simp
  | cons j l ih =>
    simp only [List.foldl_cons, List.map_cons, List.sum_cons]
    rw [ih]
    simp [adjustBalance, add_assoc]

lemma netAdjust_eq (m : Nat → Nat → Int) (n i : Nat) (p : Person) :
    netAdjust m n i p = ⟨p.name, p.balance + netDelta m n i, p.upis⟩ :=
  foldl_adjust _ _ _

lemma netFrom_getBal (m : Nat → Nat → Int) (n : Nat) (ps : List Person) :
    ∀ s j, j < ps.length → getBal (netFrom m n s ps) j = getBal ps j + netDelta m n (s + j) := by
  induction ps with
  | nil =>
    intro s j hj
    cases hj
  | cons p rest ih =>
    intro s j hj
    cases j with
    | zero => simp [netFrom, getBal, netAdjust_eq]
    | succ t =>
      simp only [netFrom, getBal, List.getD_cons_succ]
      have hrec := ih (s+1) t (by simpa using hj)
      simp only [getBal] at hrec
      rw [hrec]
      have he : s + 1 + t = s + (t + 1) := by omega
      rw [he]

lemma netFrom_totalBal (m : Nat → Nat → Int) (n : Nat) (ps : List Person) :
    ∀ s, totalBal (netFrom m n s ps)
      = totalBal ps + ((List.range ps.length).map (fun t => netDelta m n (s + t))).sum := by
  induction ps with
  | nil => intro s; simp [netFrom, totalBal]
  | cons p rest ih =>
    intro s
    simp only [netFrom, totalBal, List.map_cons, List.sum_cons, netAdjust_eq, List.length_cons]
    have hrec := ih (s+1)
    simp only [totalBal] at hrec
    rw [hrec, List.range_succ_eq_map, List.map_cons, List.sum_cons, List.map_map]
    have hcomp : ((fun t => netDelta m n (s + t)) ∘ (· + 1)) = fun t => netDelta m n (s + 1 + t) := by
      funext t
      show netDelta m n (s + (t + 1)) = netDelta m n (s + 1 + t)
      have he : s + (t + 1) = s + 1 + t := by omega
      rw [he]
    rw [hcomp]
    simp only [Nat.add_zero]
    ring

lemma netFrom_upisOf (m : Nat → Nat → Int) (n : Nat) (ps : List Person) :
    ∀ s, upisOf (netFrom m n s ps) = upisOf ps := by
  induction ps with
  | nil => intro s; rfl
  | cons p rest ih =>
    intro s
    simp only [netFrom, upisOf, List.map_cons, netAdjust_eq]
    have hrec := ih (s+1)
    simp only [upisOf] at hrec
    rw [hrec]

lemma listRangeSum (n : Nat) (f : Nat → Int) :
    ((List.range n).map f).sum = ∑ t in Finset.range n, f t := by
  induction n with
  | zero => simp
  | succ k ih =>
    rw [List.range_succ, List.map_append, List.sum_append, Finset.sum_range_succ, ih]
    simp

lemma doubleSumZero (m : Nat → Nat → Int) (n : Nat) :
    ∑ i in Finset.range n, netDelta m n i = 0 := by
  have h1 : ∀ i, netDelta m n i
      = (∑ j in Finset.range n, m j i) - ∑ j in Finset.range n, m i j := by
    intro i
    rw [netDelta, listRangeSum, Finset.sum_sub_distrib]
  calc ∑ i in Finset.range n, netDelta m n i
      = ∑ i in Finset.range n,
          ((∑ j in Finset.range n, m j i) - ∑ j in Finset.range n, m i j) :=
        Finset.sum_congr rfl (fun i _ => h1 i)
    _ = (∑ i in Finset.range n, ∑ j in Finset.range n, m j i)
          - ∑ i in Finset.range n, ∑ j in Finset.range n, m i j := Finset.sum_sub_distrib
    _ = 0 := by rw [Finset.sum_comm]; ring

lemma computeNetBalances_totalBal (m : Nat → Nat → Int) (ps : List Person) :
    totalBal (computeNetBalances m ps) = totalBal ps := by
  rw [computeNetBalances, netFrom_totalBal]
  have hz : ((List.range ps.length).map (fun t => netDelta m ps.length (0 + t))).sum = 0 := by
    have he : (fun t => netDelta m ps.length (0 + t)) = fun t => netDelta m ps.length t := by
      funext t
      rw [Nat.zero_add]
    rw [he, listRangeSum, doubleSumZero]
  rw [hz, add_zero]

lemma computeNetBalances_getBal (m : Nat → Nat → Int) (ps : List Person) (i : Nat)
    (h : i < ps.length) :
    getBal (computeNetBalances m ps) i = getBal ps i + netDelta m ps.length i := by
  rw [computeNetBalances, netFrom_getBal m ps.length ps 0 i h, Nat.zero_add]

lemma computeNetBalances_upisOf (m : Nat → Nat → Int) (ps : List Person) :
    upisOf (computeNetBalances m ps) = upisOf ps :=
  netFrom_upisOf m ps.length ps 0

lemma netDelta_eq (m : Nat → Nat → Int) (n i : Nat) :
    netDelta m n i = colSum m n i - rowSum m n i := by
  rw [netDelta, colSum, rowSum, listRangeSum, listRangeSum, listRangeSum,
    Finset.sum_sub_distrib]

lemma net_congr (m1 m2 : Nat → Nat → Int) (hc : ∀ a b, m1 a b - m1 b a = m2 a b - m2 b a)
    (ps : List Person) : computeNetBalances m1 ps = computeNetBalances m2 ps := by
  have hd : ∀ n i, netDelta m1 n i = netDelta m2 n i := by
    intro n i
    rw [netDelta, netDelta]
    exact congrArg List.sum (List.map_congr_left (fun j _ => hc j i))
  rw [computeNetBalances, computeNetBalances]
  suffices h : ∀ s ps2, netFrom m1 ps.length s ps2 = netFrom m2 ps.length s ps2 from h 0 ps
  intro s ps2
  induction ps2 generalizing s with
  | nil => rfl
  | cons p rest ih => simp [netFrom, netAdjust_eq, hd, ih]

lemma round_nil : round [] = none := rfl

lemma round_cases (ps psr : List Person) (ts : List Transfer) (h : round ps = some (psr, ts)) :
    (∃ c bb via, findSettlement ps (getMaxDebtor ps) = some (c, bb, via)
      ∧ psr = directPs ps c ∧ ts = [⟨getMaxDebtor ps, c, directAmt ps c, via⟩])
    ∨ (∃ du fu, findSettlement ps (getMaxDebtor ps) = none
        ∧ (ps.getD (getMaxDebtor ps) dflt).upis.head? = some du
        ∧ ((ps1Of ps).getD (fcOf ps) dflt).upis.head? = some fu
        ∧ psr = adjAt (adjAt (ps1Of ps) (fcOf ps) (-(tamtOf ps))) 0 (-(tamtOf ps))
        ∧ ts = [⟨getMaxDebtor ps, 0, amtToPayOf ps, du⟩, ⟨0, fcOf ps, tamtOf ps, fu⟩]) := by
  simp only [round] at h
  cases hfs : findSettlement ps (getMaxDebtor ps) with
  | some trip =>
    obtain ⟨c, bb, via⟩ := trip
    simp only [hfs, Option.some.injEq, Prod.mk.injEq] at h
    exact Or.inl ⟨c, bb, via, rfl, h.1.symm, h.2.symm⟩
  | none =>
    simp only [hfs, fallback] at h
    cases hdu : (ps.getD (getMaxDebtor ps) dflt).upis.head? with
    | none =>
      simp only [hdu] at h
      cases h
    | some du =>
      simp only [hdu] at h
      cases hfu : ((ps1Of ps).getD (fcOf ps) dflt).upis.head? with
      | none =>
        simp only [hfu] at h
        cases h
      | some fu =>
        simp only [hfu, Option.some.injEq, Prod.mk.injEq] at h
        exact Or.inr ⟨du, fu, rfl, rfl, rfl, h.1.symm, h.2.symm⟩

lemma round_len_pos (ps psr : List Person) (ts : List Transfer)
    (h : round ps = some (psr, ts)) : 0 < ps.length := by
  cases ps with
  | nil => rw [round_nil] at h; cases h
  | cons p rest => simp

lemma round_upisOf (ps psr : List Person) (ts : List Transfer)
    (h : round ps = some (psr, ts)) : upisOf psr = upisOf ps := by
  rcases round_cases ps psr ts h with ⟨c, bb, via, _, hps, _⟩ | ⟨du, fu, _, _, _, hps, _⟩
  · rw [hps, directPs, upisOf_adjAt, upisOf_adjAt]
  · rw [hps, upisOf_adjAt, upisOf_adjAt, ps1Of, upisOf_adjAt, upisOf_adjAt]

lemma ps1Of_length (ps : List Person) : (ps1Of ps).length = ps.length := by
  rw [ps1Of, adjAt_length, adjAt_length]

lemma round_direct_totalBal (ps psr : List Person) (t0 : Transfer)
    (h : round ps = some (psr, [t0])) : totalBal psr = totalBal ps := by
  have hlen := round_len_pos ps psr [t0] h
  rcases round_cases ps psr [t0] h with ⟨c, bb, via, hfs, hps, _⟩ | ⟨du, fu, _, _, _, _, hts⟩
  · obtain ⟨hclt, _, _, _, _⟩ := findSettlement_spec ps (getMaxDebtor ps) c bb via hfs
    rw [hps, directPs,
      totalBal_adjAt _ c _ (by rw [adjAt_length]; exact hclt),
      totalBal_adjAt _ _ _ (getMaxDebtor_lt ps hlen)]
    ring
  · exact absurd hts (by simp)

lemma treasurerSuperset_spec (ps : List Person) (h : treasurerSuperset ps = true)
    (j : Nat) (hj : j < ps.length) (v : String) (hv : v ∈ (ps.getD j dflt).upis) :
    v ∈ (ps.getD 0 dflt).upis := by
  simp only [treasurerSuperset, List.all_eq_true] at h
  have hmem : ps.getD j dflt ∈ ps := by
    rw [List.getD_eq_getElem _ _ hj]
    exact List.getElem_mem _
  have h2 := h _ hmem
  simp only [List.all_eq_true, decide_eq_true_eq] at h2
  exact h2 v hv

lemma someNonPos_spec (ps : List Person) (h : someNonPos ps = true) :
    ∃ i, i < ps.length ∧ getBal ps i ≤ 0 := by
  simp only [someNonPos, List.any_eq_true, decide_eq_true_eq] at h
  obtain ⟨p, hp, hbal⟩ := h
  obtain ⟨n, hn⟩ := List.mem_iff_get.mp hp
  refine ⟨n, n.isLt, ?_⟩
  rw [getBal, List.getD_eq_getElem _ _ n.isLt]
  rw [List.get_eq_getElem] at hn
  rw [hn]
  exact hbal

lemma maxDebtor_balance_nonpos (ps : List Person) (h : someNonPos ps = true) :
    getBal ps (getMaxDebtor ps) ≤ 0 := by
  obtain ⟨i, hi, hb⟩ := someNonPos_spec ps h
  exact le_trans (getMaxDebtor_le ps i hi) hb

lemma tamtOf_nonneg (ps : List Person) (h : someNonPos ps = true) (hlen : 0 < ps.length) :
    0 ≤ tamtOf ps := by
  have hd := maxDebtor_balance_nonpos ps h
  rw [tamtOf, ps1Of]
  by_cases hd0 : getMaxDebtor ps = 0
  · rw [hd0]
    rw [getBal_adjAt_self _ 0 _ (by rw [adjAt_length]; exact hlen),
      getBal_adjAt_self _ 0 _ hlen]
    rw [hd0] at hd
    simp only [amtToPayOf, hd0]
    omega
  · rw [getBal_adjAt_ne _ _ _ 0 (by omega),
      getBal_adjAt_self _ 0 _ hlen]
    have h0 := getMaxDebtor_le ps 0 hlen
    simp only [amtToPayOf]
    omega

lemma readEntriesFrom_balances (ea : Nat → Entry) : ∀ cnt s lst,
    readEntriesFrom ea s cnt = Except.ok lst → ∀ p ∈ lst, p.balance = 0 := by
  intro cnt
  induction cnt with
  | zero =>
    intro s lst h p hp
    simp only [readEntriesFrom, Except.ok.injEq] at h
    rw [← h] at hp
    cases hp
  | succ k ih =>
    intro s lst h p hp
    simp only [readEntriesFrom] at h
    by_cases hk : (ea s).k < 0
    · rw [if_pos hk] at h; cases h
    · rw [if_neg hk] at h
      cases hre : readEntriesFrom ea (s+1) k with
      | error msg => rw [hre] at h; cases h
      | ok rest =>
        rw [hre] at h
        simp only [Except.ok.injEq] at h
        rw [← h] at hp
        rcases List.mem_cons.mp hp with rfl | hp2
        · exact mkPerson_balance _
        · exact ih (s+1) rest hre p hp2

lemma readParticipants_ok_elim (inp : Input) (ps : List Person)
    (h : readParticipants inp = Except.ok ps) :
    ∃ lst, readEntriesFrom inp.entryAt 0 inp.n.toNat = Except.ok lst
      ∧ ps = unionUpis lst ∧ ¬ inp.n < 2 := by
  by_cases hn : inp.n < 2
  · simp [readParticipants, hn] at h
  · cases hre : readEntriesFrom inp.entryAt 0 inp.n.toNat with
    | error e => simp [readParticipants, hn, hre] at h
    | ok lst =>
      simp only [readParticipants, if_neg hn, hre, Except.ok.injEq] at h
      exact ⟨lst, rfl, h.symm, hn⟩

lemma readParticipants_totalBal (inp : Input) (ps : List Person)
    (h : readParticipants inp = Except.ok ps) : totalBal ps = 0 := by
  obtain ⟨lst, hre, hps, _⟩ := readParticipants_ok_elim inp ps h
  have hb := readEntriesFrom_balances inp.entryAt inp.n.toNat 0 lst hre
  have he : totalBal (unionUpis lst) = totalBal lst := by
    rw [totalBal, totalBal, unionUpis_balances]
  rw [hps, he, totalBal]
  apply List.sum_eq_zero
  intro x hx
  obtain ⟨p, hp, hpx⟩ := List.mem_map.mp hx
  rw [← hpx]
  exact hb p hp

lemma idxOf_foldl_isSome (names : List String) (nm : String) (l : List Nat) :
    ∀ acc : Option Nat,
      ((l.foldl (fun acc i => if names.getD i "" = nm then some i else acc) acc).isSome = true)
        ↔ (acc.isSome = true ∨ ∃ i ∈ l, names.getD i "" = nm) := by
  induction l with
  | nil =>
    intro acc
    simp
  | cons j l ih =>
    intro acc
    rw [List.foldl_cons, ih]
    by_cases hj : names.getD j "" = nm
    · rw [if_pos hj]
      constructor
      · intro _
        exact Or.inr ⟨j, List.mem_cons_self _ _, hj⟩
      · intro _
        exact Or.inl rfl
    · rw [if_neg hj]
      constructor
      · rintro (h | ⟨i, hi, hp⟩)
        · exact Or.inl h
        · exact Or.inr ⟨i, List.mem_cons_of_mem _ hi, hp⟩
      · rintro (h | ⟨i, hi, hp⟩)
        · exact Or.inl h
        · rcases List.mem_cons.mp hi with rfl | hi2
          · exact absurd hp hj
          · exact Or.inr ⟨i, hi2, hp⟩

lemma mem_iff_getD (names : List String) (nm : String) :
    nm ∈ names ↔ ∃ i, i < names.length ∧ names.getD i "" = nm := by
  induction names with
  | nil => simp
  | cons x xs ih =>
    simp only [List.mem_cons, List.length_cons]
    constructor
    · rintro (rfl | hmem)
      · exact ⟨0, by omega, rfl⟩
      · obtain ⟨i, hi, hp⟩ := ih.mp hmem
        exact ⟨i+1, by omega, by simpa [List.getD_cons_succ] using hp⟩
    · rintro ⟨i, hi, hp⟩
      cases i with
      | zero =>
        rw [List.getD_cons_zero] at hp
        exact Or.inl hp.symm
      | succ t =>
        rw [List.getD_cons_succ] at hp
        exact Or.inr (ih.mpr ⟨t, by omega, hp⟩)

lemma idxOf_isSome_iff (names : List String) (nm : String) :
    (idxOf names nm).isSome = true ↔ nm ∈ names := by
  rw [idxOf, idxOf_foldl_isSome]
  simp only [Option.isSome_none, Bool.false_eq_true, false_or, List.mem_range]
  exact (mem_iff_getD names nm).symm

lemma readEntriesFrom_isOk (ea : Nat → Entry) :
    ∀ cnt s, exOk (readEntriesFrom ea s cnt) = true ↔ ∀ t, t < cnt → 0 ≤ (ea (s+t)).k := by
  intro cnt
  induction cnt with
  | zero =>
    intro s
    simp [readEntriesFrom, exOk]
  | succ k ih =>
    intro s
    simp only [readEntriesFrom]
    by_cases hk : (ea s).k < 0
    · rw [if_pos hk]
      constructor
      · intro h
        simp [exOk] at h
      · intro h
        have h0 := h 0 (Nat.succ_pos k)
        rw [Nat.add_zero] at h0
        omega
    · rw [if_neg hk]
      have heq : exOk (match readEntriesFrom ea (s+1) k with
          | Except.error msg => Except.error msg
          | Except.ok rest => Except.ok (mkPerson (ea s) :: rest))
          = exOk (readEntriesFrom ea (s+1) k) := by
        cases readEntriesFrom ea (s+1) k <;> rfl
      rw [heq, ih (s+1)]
      constructor
      · intro h t ht
        cases t with
        | zero =>
          rw [Nat.add_zero]
          omega
        | succ u =>
          have hu := h u (by omega)
          have he : s + 1 + u = s + (u+1) := by omega
          rw [he] at hu
          exact hu
      · intro h t ht
        have hu := h (t+1) (by omega)
        have he : s + (t+1) = s + 1 + t := by omega
        rw [he] at hu
        exact hu

lemma readEntriesFrom_names (ea : Nat → Entry) :
    ∀ cnt s lst, readEntriesFrom ea s cnt = Except.ok lst →
      lst.map (fun p => p.name) = (List.range cnt).map (fun t => (ea (s+t)).name) := by
  intro cnt
  induction cnt with
  | zero =>
    intro s lst h
    simp only [readEntriesFrom, Except.ok.injEq] at h
    rw [← h]
    rfl
  | succ k ih =>
    intro s lst h
    simp only [readEntriesFrom] at h
    by_cases hk : (ea s).k < 0
    · rw [if_pos hk] at h
      cases h
    · rw [if_neg hk] at h
      cases hre : readEntriesFrom ea (s+1) k with
      | error msg =>
        rw [hre] at h
        cases h
      | ok rest =>
        rw [hre] at h
        simp only [Except.ok.injEq] at h
        rw [← h]
        simp only [List.map_cons, mkPerson_name]
        rw [ih (s+1) rest hre, List.range_succ_eq_map, List.map_cons, List.map_map]
        congr 1
        apply List.map_congr_left
        intro t _
        show (ea (s+1+t)).name = (ea (s+(t+1))).name
        have he : s+1+t = s+(t+1) := by omega
        rw [he]

lemma readParticipants_isOk_iff (inp : Input) :
    exOk (readParticipants inp) = true
      ↔ (2 ≤ inp.n ∧ ∀ i, i < inp.n.toNat → 0 ≤ (inp.entryAt i).k) := by
  by_cases hn : inp.n < 2
  · simp only [readParticipants, if_pos hn]
    constructor
    · intro h
      simp [exOk] at h
    · rintro ⟨h2, _⟩
      omega
  · simp only [readParticipants, if_neg hn]
    have heq : exOk (match readEntriesFrom inp.entryAt 0 inp.n.toNat with
        | Except.error msg => Except.error msg
        | Except.ok ps => Except.ok (unionUpis ps))
        = exOk (readEntriesFrom inp.entryAt 0 inp.n.toNat) := by
      cases readEntriesFrom inp.entryAt 0 inp.n.toNat <;> rfl
    rw [heq, readEntriesFrom_isOk]
    constructor
    · intro h
      refine ⟨by omega, fun i hi => ?_⟩
      have hh := h i hi
      rwa [Nat.zero_add] at hh
    · rintro ⟨_, h⟩ t ht
      rw [Nat.zero_add]
      exact h t ht

lemma readParticipants_names (inp : Input) (ps : List Person)
    (h : readParticipants inp = Except.ok ps) :
    ps.map (fun p => p.name) = inpNames inp := by
  obtain ⟨lst, hre, hps, _⟩ := readParticipants_ok_elim inp ps h
  rw [hps, unionUpis_names, readEntriesFrom_names inp.entryAt inp.n.toNat 0 lst hre, inpNames]
  apply List.map_congr_left
  intro t _
  rw [Nat.zero_add]

lemma readDebtsFrom_isOk (names : List String) (da : Nat → String × String × Int) :
    ∀ cnt j mtx, exOk (readDebtsFrom names da j cnt mtx) = true
      ↔ ∀ t, t < cnt →
          0 < (da (j+t)).2.2 ∧ (da (j+t)).1 ∈ names ∧ (da (j+t)).2.1 ∈ names := by
  intro cnt
  induction cnt with
  | zero =>
    intro j mtx
    simp [readDebtsFrom, exOk]
  | succ k ih =>
    intro j mtx
    simp only [readDebtsFrom]
    cases h1 : idxOf names (da j).1 with
    | none =>
      constructor
      · intro h
        simp [exOk] at h
      · intro h
        exfalso
        have hm := (h 0 (Nat.succ_pos k)).2.1
        rw [Nat.add_zero] at hm
        have hS := (idxOf_isSome_iff names (da j).1).mpr hm
        rw [h1] at hS
        simp at hS
    | some di =>
      cases h2 : idxOf names (da j).2.1 with
      | none =>
        constructor
        · intro h
          simp [exOk] at h
        · intro h
          exfalso
          have hm := (h 0 (Nat.succ_pos k)).2.2
          rw [Nat.add_zero] at hm
          have hS := (idxOf_isSome_iff names (da j).2.1).mpr hm
          rw [h2] at hS
          simp at hS
      | some ci =>
        dsimp only
        by_cases ha : (da j).2.2 ≤ 0
        · rw [if_pos ha]
          constructor
          · intro h
            simp [exOk] at h
          · intro h
            have hm := (h 0 (Nat.succ_pos k)).1
            rw [Nat.add_zero] at hm
            omega
        · rw [if_neg ha]
          rw [ih (j+1) (addDebt mtx di ci (da j).2.2)]
          have hmem1 : (da j).1 ∈ names := by
            have hS : (idxOf names (da j).1).isSome = true := by rw [h1]; rfl
            exact (idxOf_isSome_iff names (da j).1).mp hS
          have hmem2 : (da j).2.1 ∈ names := by
            have hS : (idxOf names (da j).2.1).isSome = true := by rw [h2]; rfl
            exact (idxOf_isSome_iff names (da j).2.1).mp hS
          constructor
          · intro h t ht
            cases t with
            | zero =>
              rw [Nat.add_zero]
              exact ⟨by omega, hmem1, hmem2⟩
            | succ u =>
              have hu := h u (by omega)
              have he : j + 1 + u = j + (u+1) := by omega
              rw [he] at hu
              exact hu
          · intro h t ht
            have hu := h (t+1) (by omega)
            have he : j + (t+1) = j + 1 + t := by omega
            rw [he] at hu
            exact hu

lemma readTransactions_isOk_iff (inp : Input) (names : List String) :
    exOk (readTransactions inp names) = true
      ↔ (0 ≤ inp.m ∧ ∀ j, j < inp.m.toNat →
          0 < (inp.debtAt j).2.2 ∧ (inp.debtAt j).1 ∈ names ∧ (inp.debtAt j).2.1 ∈ names) := by
  by_cases hm : inp.m < 0
  · simp only [readTransactions, if_pos hm]
    constructor
    · intro h
      simp [exOk] at h
    · rintro ⟨h0, _⟩
      omega
  · simp only [readTransactions, if_neg hm]
    rw [readDebtsFrom_isOk]
    constructor
    · intro h
      refine ⟨by omega, fun j hj => ?_⟩
      have hh := h j hj
      rwa [Nat.zero_add] at hh
    · rintro ⟨_, h⟩ t ht
      rw [Nat.zero_add]
      exact h t ht

lemma iterStuckC1 (fuel : Nat) : ∀ acc, (settleIter fuel psFixC1 acc).outcome = Outcome.outOfFuel := by
  induction fuel with
  | zero => intro acc; rfl
  | succ k ih =>
    intro acc
    have h : settleIter (k+1) psFixC1 acc
        = settleIter k psFixC1 (acc ++ [⟨0, 2, 0, "C"⟩]) := rfl
    rw [h]
    exact ih _

/-- C1 counterexample: the input inpC1 is accepted (three participants,
two valid debts), yet the settlement-planning loop never reaches its
exit condition: after one round the balances are (0, 0, 10) and every
further round emits a zero-amount transfer from T to P2 and changes no
balance, so the loop runs forever.  This refutes termination (and with
it the round bound) claimed for every accepted input. -/
theorem C1_nontermination : exOk (readAll inpC1) = true ∧ loopsForever (nettedOf inpC1) := by
  refine ⟨rfl, ?_⟩
  intro fuel
  cases fuel with
  | zero => rfl
  | succ k =>
    have h : settleIter (k+1) (nettedOf inpC1) []
        = settleIter k psFixC1 [⟨1, 0, 10, "B"⟩, ⟨0, 2, 5, "C"⟩] := rfl
    rw [h]
    exact iterStuckC1 k _

/-- C1 amended: the loop is not guaranteed to terminate, but whenever
the settleDebts loop does exit (outcome `finished`, i.e. the while
condition settledCount < n became false), every participant's balance
is zero. -/
theorem C1_settled_on_exit (fuel : Nat) (ps : List Person) (acc : List Transfer)
    (h : (settleIter fuel ps acc).outcome = Outcome.finished) :
    (settleIter fuel ps acc).people.all (fun p => p.balance == 0) = true := by
  induction fuel generalizing ps acc with
  | zero =>
    by_cases hc : settledCount ps < ps.length
    · have : (settleIter 0 ps acc).outcome = Outcome.outOfFuel := by
        simp only [settleIter, hc, if_true]
      rw [this] at h; cases h
    · have hps : (settleIter 0 ps acc).people = ps := by
        simp only [settleIter, hc, if_false]
      rw [hps]
      have hle : ps.countP (fun p => p.balance == 0) ≤ ps.length := List.countP_le_length _
      have hlen : ps.countP (fun p => p.balance == 0) = ps.length := by
        simp only [settledCount] at hc
        omega
      exact List.all_eq_true.mpr (List.countP_eq_length.mp hlen)
  | succ k ih =>
    by_cases hc : settledCount ps < ps.length
    · rcases hr : round ps with _ | pr
      · have : (settleIter (k+1) ps acc).outcome = Outcome.ubStuck := by
          simp only [settleIter, hc, if_true, hr]
        rw [this] at h; cases h
      · have hstep : settleIter (k+1) ps acc = settleIter k pr.1 (acc ++ pr.2) := by
          simp only [settleIter, hc, if_true, hr]
        rw [hstep] at h ⊢
        exact ih _ _ h
    · have hps : (settleIter (k+1) ps acc).people = ps := by
        simp only [settleIter, hc, if_false]
      rw [hps]
      have hle : ps.countP (fun p => p.balance == 0) ≤ ps.length := List.countP_le_length _
      have hlen : ps.countP (fun p => p.balance == 0) = ps.length := by
        simp only [settledCount] at hc
        omega
      exact List.all_eq_true.mpr (List.countP_eq_length.mp hlen)

/-- C1 witness: on the scenario input inpC4 the loop exits within fuel
9 and every balance is zero at exit. -/
theorem C1_settled_on_exit_witness :
    (settleIter 9 (nettedOf inpC4) []).people.all (fun p => p.balance == 0) = true :=
  C1_settled_on_exit 9 (nettedOf inpC4) [] rfl

/-- C2 counterexample: on the accepted input inpC1 the first planning
round takes the fallback branch; after its second transfer (T pays P2
5 via C) the balances are (0, 0, 10), whose sum is 10, not zero — the
fallback bookkeeping adds the paid amount to both the debtor and the
Treasurer, so the conservation invariant fails after fallback
transfers. -/
theorem C2_sum_not_conserved :
    exOk (readAll inpC1) = true ∧
    (settleIter 1 (nettedOf inpC1) []).plan = [⟨1, 0, 10, "B"⟩, ⟨0, 2, 5, "C"⟩] ∧
    totalBal ((settleIter 1 (nettedOf inpC1) []).people) ≠ 0 :=
  ⟨rfl, rfl, by decide⟩

/-- C3 counterexample: on the accepted input inpC1 the plan emitted in
the first two rounds ends with the transfer (T, P2, amount 0, via C):
a zero-amount transfer is appended to the settlement plan, refuting
strict positivity of every emitted amount. -/
theorem C3_zero_amount_transfer :
    exOk (readAll inpC1) = true ∧
    (settleIter 2 (nettedOf inpC1) []).plan
      = [⟨1, 0, 10, "B"⟩, ⟨0, 2, 5, "C"⟩, ⟨0, 2, 0, "C"⟩] ∧
    strictValid (nettedOf inpC1) ((settleIter 2 (nettedOf inpC1) []).plan) = false :=
  ⟨rfl, rfl, by decide⟩

/-- C4: the planner on the scenario input (T with {A}, P1 with {B},
P2 with {C}, P1 owes P2 7) produces a THREE-transfer plan: P1 pays T 7
via B, then — because the recomputed max creditor is the Treasurer
itself and the code, lacking any fc == treasurer check, still emits —
T pays T 7 via A, leaving the Treasurer at balance −7, and a second
round emits T pays P2 7 via C. -/
theorem C4_three_transfer_plan : runAll inpC4 9 = Except.ok
    ([⟨"T", 0, ["A", "B", "C"]⟩, ⟨"P1", 0, ["B"]⟩, ⟨"P2", 0, ["C"]⟩],
     [⟨1, 0, 7, "B"⟩, ⟨0, 0, 7, "A"⟩, ⟨0, 2, 7, "C"⟩]) := rfl

/-- C4 counterexample: the plan is not the claimed two-transfer plan
(P1 pays T 7 via B, then T pays P2 7 via C). -/
theorem C4_plan_not_two_transfers :
    planOfRun inpC4 9 ≠ some [⟨1, 0, 7, "B"⟩, ⟨0, 2, 7, "C"⟩] := by decide

/-- C2 amended: for every accepted registry the sum of balances is
exactly zero immediately after net-balance computation, and any round
that emits a single transfer (the direct branch) leaves the sum zero;
the two transfers of a fallback round do not individually preserve the
sum (see the counterexample). -/
theorem C2_netting_and_direct_conserve (inp : Input) (ps : List Person)
    (m : Nat → Nat → Int) (psr : List Person) (t0 : Transfer)
    (h1 : readParticipants inp = Except.ok ps)
    (h2 : round (computeNetBalances m ps) = some (psr, [t0])) :
    totalBal (computeNetBalances m ps) = 0 ∧ totalBal psr = 0 := by
  have hz : totalBal ps = 0 := readParticipants_totalBal inp ps h1
  have hnet : totalBal (computeNetBalances m ps) = 0 := by
    rw [computeNetBalances_totalBal]
    exact hz
  exact ⟨hnet, by rw [round_direct_totalBal _ _ _ h2]; exact hnet⟩

/-- C2 witness: the two-participant run (T and P sharing UPI A, P owes
T 5) is netted to sum zero and its single direct round keeps the sum
zero. -/
theorem C2_netting_and_direct_conserve_witness :
    totalBal (computeNetBalances (addDebt zeroMtx 1 0 5)
        [⟨"T", 0, ["A"]⟩, ⟨"P", 0, ["A"]⟩]) = 0
      ∧ totalBal [⟨"T", 0, ["A"]⟩, ⟨"P", 0, ["A"]⟩] = 0 :=
  C2_netting_and_direct_conserve inpW [⟨"T", 0, ["A"]⟩, ⟨"P", 0, ["A"]⟩]
    (addDebt zeroMtx 1 0 5) [⟨"T", 0, ["A"]⟩, ⟨"P", 0, ["A"]⟩] ⟨1, 0, 5, "A"⟩ rfl rfl

/-- C3 amended: in any round started from a registry in which some
participant has a non-positive balance and the Treasurer's UPI set
contains every participant's UPI set, every emitted transfer has a
NON-NEGATIVE amount (zero is reachable, see the counterexample) and
its channel belongs to both the payer's and the payee's UPI sets at
the time of emission. -/
theorem C3_transfers_valid (ps psr : List Person) (ts : List Transfer)
    (h1 : someNonPos ps = true) (h2 : treasurerSuperset ps = true)
    (h3 : round ps = some (psr, ts)) : validTransfers ps ts = true := by
  have hlen := round_len_pos ps psr ts h3
  have hdnp := maxDebtor_balance_nonpos ps h1
  have hdlt := getMaxDebtor_lt ps hlen
  rcases round_cases ps psr ts h3 with ⟨c, bb, via, hfs, _, hts⟩ | ⟨du, fu, _, hdu, hfu, _, hts⟩
  · obtain ⟨hclt, hbb, hbpos, hvd, hvc⟩ := findSettlement_spec ps (getMaxDebtor ps) c bb via hfs
    subst hts
    have hamt : 0 ≤ directAmt ps c := by
      rw [directAmt]
      apply le_min
      · rw [amtToPayOf]
        omega
      · rw [← hbb]
        exact le_of_lt hbpos
    simp only [validTransfers, List.all_cons, List.all_nil, Bool.and_true, Bool.and_eq_true,
      decide_eq_true_eq]
    exact ⟨⟨hamt, hvd⟩, hvc⟩
  · subst hts
    have hdu_mem := mem_of_head? _ _ hdu
    have hfu_mem : fu ∈ (ps.getD (fcOf ps) dflt).upis := by
      have e : ((ps1Of ps).getD (fcOf ps) dflt).upis = (ps.getD (fcOf ps) dflt).upis := by
        rw [ps1Of, getD_adjAt_upis, getD_adjAt_upis]
      rw [← e]
      exact mem_of_head? _ _ hfu
    have hfclt : fcOf ps < ps.length := by
      have hcl := getMaxCreditor_lt (ps1Of ps) (by rw [ps1Of_length]; exact hlen)
      rw [ps1Of_length] at hcl
      exact hcl
    have hamt1 : 0 ≤ amtToPayOf ps := by
      rw [amtToPayOf]
      omega
    have hamt2 : 0 ≤ tamtOf ps := tamtOf_nonneg ps h1 hlen
    simp only [validTransfers, List.all_cons, List.all_nil, Bool.and_true, Bool.and_eq_true,
      decide_eq_true_eq]
    exact ⟨⟨⟨hamt1, hdu_mem⟩, treasurerSuperset_spec ps h2 _ hdlt du hdu_mem⟩,
      ⟨hamt2, treasurerSuperset_spec ps h2 _ hfclt fu hfu_mem⟩, hfu_mem⟩

/-- C3 witness: the fallback round of the scenario input inpC4 emits
two transfers, both with non-negative amount and valid channels. -/
theorem C3_transfers_valid_witness :
    validTransfers (nettedOf inpC4) [⟨1, 0, 7, "B"⟩, ⟨0, 0, 7, "A"⟩] = true :=
  C3_transfers_valid (nettedOf inpC4)
    [⟨"T", -7, ["A", "B", "C"]⟩, ⟨"P1", 0, ["B"]⟩, ⟨"P2", 7, ["C"]⟩]
    [⟨1, 0, 7, "B"⟩, ⟨0, 0, 7, "A"⟩] (by rfl) (by rfl) (by rfl)

/-- C5: after registration the Treasurer's UPI set contains every
participant's UPI set, and neither netting nor a settlement round
changes any participant's UPI set (debt reading never touches the
registry at all), so the superset holds at every later point. -/
theorem C5_treasurer_superset (inp : Input) (ps psr : List Person) (m : Nat → Nat → Int)
    (ts : List Transfer)
    (h1 : readParticipants inp = Except.ok ps)
    (h2 : round (computeNetBalances m ps) = some (psr, ts)) :
    treasurerSuperset ps = true
      ∧ upisOf (computeNetBalances m ps) = upisOf ps
      ∧ upisOf psr = upisOf ps := by
  obtain ⟨lst, _, hps, _⟩ := readParticipants_ok_elim inp ps h1
  refine ⟨by rw [hps]; exact unionUpis_superset lst, computeNetBalances_upisOf m ps, ?_⟩
  rw [round_upisOf _ _ _ h2, computeNetBalances_upisOf]

/-- C5 witness: instantiated on the scenario input inpC4 and its first
settlement round. -/
theorem C5_treasurer_superset_witness :
    treasurerSuperset [⟨"T", 0, ["A", "B", "C"]⟩, ⟨"P1", 0, ["B"]⟩, ⟨"P2", 0, ["C"]⟩] = true
      ∧ upisOf (computeNetBalances (addDebt zeroMtx 1 2 7)
          [⟨"T", 0, ["A", "B", "C"]⟩, ⟨"P1", 0, ["B"]⟩, ⟨"P2", 0, ["C"]⟩])
        = upisOf [⟨"T", 0, ["A", "B", "C"]⟩, ⟨"P1", 0, ["B"]⟩, ⟨"P2", 0, ["C"]⟩]
      ∧ upisOf [⟨"T", -7, ["A", "B", "C"]⟩, ⟨"P1", 0, ["B"]⟩, ⟨"P2", 7, ["C"]⟩]
        = upisOf [⟨"T", 0, ["A", "B", "C"]⟩, ⟨"P1", 0, ["B"]⟩, ⟨"P2", 0, ["C"]⟩] :=
  C5_treasurer_superset inpC4
    [⟨"T", 0, ["A", "B", "C"]⟩, ⟨"P1", 0, ["B"]⟩, ⟨"P2", 0, ["C"]⟩]
    [⟨"T", -7, ["A", "B", "C"]⟩, ⟨"P1", 0, ["B"]⟩, ⟨"P2", 7, ["C"]⟩]
    (addDebt zeroMtx 1 2 7) [⟨1, 0, 7, "B"⟩, ⟨0, 0, 7, "A"⟩] rfl rfl

/-- C7: whenever some participant with strictly positive balance
shares a UPI with the current max debtor, the round takes the direct
branch: it emits exactly one transfer, paid by the max debtor, and
does not route through the Treasurer. -/
theorem C7_direct_preference (ps : List Person)
    (h : hasEligible ps (getMaxDebtor ps) = true) : directRound ps = true := by
  have hs := findSettlement_isSome_of_eligible ps (getMaxDebtor ps) h
  cases hfs : findSettlement ps (getMaxDebtor ps) with
  | none =>
    rw [hfs] at hs
    cases hs
  | some trip =>
    obtain ⟨c, bb, via⟩ := trip
    simp only [directRound, round, hfs]
    simp

/-- C7 witness: a two-participant registry sharing UPI A with one
creditor and one debtor has an eligible direct creditor and the round
is direct. -/
theorem C7_direct_preference_witness :
    hasEligible [⟨"T", 5, ["A"]⟩, ⟨"P", -5, ["A"]⟩]
        (getMaxDebtor [⟨"T", 5, ["A"]⟩, ⟨"P", -5, ["A"]⟩]) = true
      ∧ directRound [⟨"T", 5, ["A"]⟩, ⟨"P", -5, ["A"]⟩] = true :=
  ⟨rfl, C7_direct_preference _ rfl⟩

/-- C6: the netting step assigns every participant i starting from
balance 0 the balance (sum of column i) minus (sum of row i) of the
debt matrix, and overwriting any diagonal entry (k, k) with any value
changes no participant's netted balance. -/
theorem C6_netting_formula (m : Nat → Nat → Int) (ps : List Person) (i k : Nat) (v : Int)
    (h1 : i < ps.length) (h2 : getBal ps i = 0) :
    getBal (computeNetBalances m ps) i = colSum m ps.length i - rowSum m ps.length i
      ∧ computeNetBalances (setEntry m k k v) ps = computeNetBalances m ps := by
  constructor
  · rw [computeNetBalances_getBal m ps i h1, h2, netDelta_eq, zero_add]
  · apply net_congr
    intro a b
    by_cases hab : a = k ∧ b = k
    · obtain ⟨rfl, rfl⟩ := hab
      simp [setEntry]
    · have hba : ¬ (b = k ∧ a = k) := by tauto
      simp [setEntry, hab, hba]

/-- C6 witness: a concrete 2x2 matrix with a non-zero diagonal entry,
evaluated at participant 0, diagonal position 1. -/
theorem C6_netting_formula_witness :
    getBal (computeNetBalances (addDebt (addDebt zeroMtx 0 1 4) 1 1 9)
        [⟨"T", 0, ["A"]⟩, ⟨"P", 0, ["A"]⟩]) 0
      = colSum (addDebt (addDebt zeroMtx 0 1 4) 1 1 9) 2 0
        - rowSum (addDebt (addDebt zeroMtx 0 1 4) 1 1 9) 2 0
      ∧ computeNetBalances (setEntry (addDebt (addDebt zeroMtx 0 1 4) 1 1 9) 1 1 99)
          [⟨"T", 0, ["A"]⟩, ⟨"P", 0, ["A"]⟩]
        = computeNetBalances (addDebt (addDebt zeroMtx 0 1 4) 1 1 9)
          [⟨"T", 0, ["A"]⟩, ⟨"P", 0, ["A"]⟩] :=
  C6_netting_formula (addDebt (addDebt zeroMtx 0 1 4) 1 1 9)
    [⟨"T", 0, ["A"]⟩, ⟨"P", 0, ["A"]⟩] 0 1 99 (by decide) rfl

/-- C9: a debt record naming the same registered participant as both
debtor and creditor with a positive amount is accepted — it adds the
amount onto the diagonal entry (i, i) — and that diagonal addition
changes no participant's netted balance. -/
theorem C9_self_debt_accepted (names : List String) (da : Nat → String × String × Int)
    (j : Nat) (mtx : Nat → Nat → Int) (nm : String) (a : Int) (i : Nat) (ps : List Person)
    (h1 : da j = (nm, nm, a)) (h2 : idxOf names nm = some i) (h3 : 0 < a) :
    readDebtsFrom names da j 1 mtx = Except.ok (addDebt mtx i i a)
      ∧ computeNetBalances (addDebt mtx i i a) ps = computeNetBalances mtx ps := by
  constructor
  · simp only [readDebtsFrom, h1]
    simp [h2, not_le.mpr h3, readDebtsFrom]
  · apply net_congr
    intro x y
    by_cases hxy : x = i ∧ y = i
    · obtain ⟨rfl, rfl⟩ := hxy
      simp [addDebt]
    · have hyx : ¬ (y = i ∧ x = i) := by tauto
      simp [addDebt, hxy, hyx]

/-- C9 witness: the self-debt (P, P, 3) against the registry
["T", "P"] is accepted and nets to the same balances as no debt. -/
theorem C9_self_debt_accepted_witness :
    readDebtsFrom ["T", "P"] (fun _ => ("P", "P", 3)) 0 1 zeroMtx
      = Except.ok (addDebt zeroMtx 1 1 3)
      ∧ computeNetBalances (addDebt zeroMtx 1 1 3) [⟨"T", 0, ["A"]⟩, ⟨"P", 0, ["A"]⟩]
        = computeNetBalances zeroMtx [⟨"T", 0, ["A"]⟩, ⟨"P", 0, ["A"]⟩] :=
  C9_self_debt_accepted ["T", "P"] (fun _ => ("P", "P", 3)) 0 zeroMtx "P" 3 1
    [⟨"T", 0, ["A"]⟩, ⟨"P", 0, ["A"]⟩] rfl rfl (by decide)

/-- C8: the input-reading phase succeeds exactly on well-formed
inputs: it aborts with an error (and the run then produces no
settlement plan) precisely when the participant count is below 2, some
UPI count is negative, the debt count is negative, or some debt has a
non-positive amount or names an unregistered participant. -/
theorem C8_accept_iff_wellformed (inp : Input) :
    exOk (readAll inp) = true ↔ ValidInput inp := by
  cases hp : readParticipants inp with
  | error e =>
    apply iff_of_false
    · simp [readAll, hp, exOk]
    · rintro ⟨v1, v2, _, _⟩
      have hok := (readParticipants_isOk_iff inp).mpr ⟨v1, v2⟩
      rw [hp] at hok
      simp [exOk] at hok
  | ok ps =>
    have hnames := readParticipants_names inp ps hp
    have hfirst := (readParticipants_isOk_iff inp).mp (by rw [hp]; rfl)
    have hra : readAll inp = (match readTransactions inp (ps.map (fun p => p.name)) with
        | Except.error e => Except.error e
        | Except.ok mtx => Except.ok (ps, mtx)) := by
      simp [readAll, hp]
    cases ht : readTransactions inp (ps.map (fun p => p.name)) with
    | error e =>
      apply iff_of_false
      · rw [hra, ht]
        simp [exOk]
      · rintro ⟨_, _, v3, v4⟩
        have hok : exOk (readTransactions inp (ps.map (fun p => p.name))) = true := by
          rw [readTransactions_isOk_iff, hnames]
          exact ⟨v3, v4⟩
        rw [ht] at hok
        simp [exOk] at hok
    | ok mtx =>
      apply iff_of_true
      · rw [hra, ht]
        rfl
      · have hsec := (readTransactions_isOk_iff inp (ps.map (fun p => p.name))).mp
          (by rw [ht]; rfl)
        rw [hnames] at hsec
        exact ⟨hfirst.1, hfirst.2, hsec.1, hsec.2⟩

/-- C10: registration accepts the entry with UPI count zero (the whole
input inpC10 is read successfully), but the settlement then takes the
fallback branch for debtor P whose UPI set is empty, and the run hits
the undefined dereference of begin() of an empty std::set. -/
theorem C10_empty_upi_dereference :
    exOk (readAll inpC10) = true ∧
    runAll inpC10 9 = Except.error "dereference of empty UPI set" :=
  ⟨rfl, rfl⟩

end CashFlow
